import Mathlib

/-!
# Codemap subsystem: address-to-source-location index of a tracing JIT

Shallow embedding of the codemap subsystem (merge-point log encoder/decoder,
frame-depth table, block index/storage).  The repository ships only the test
file `rpython/jit/backend/llsupport/test/test_codemap.py`; the implementation
module `codemap.py` is not part of the sources, so the definitions below are
modelled from the specification and validated against the shipped tests.
-/

namespace Codemap

/-- Modelled from the spec: an `Event` is a `(depth, location_id, offset)`
triple recorded by `debug_merge_point` (§3); `depth` and `offset` are
non-negative, `location_id` is an opaque integer. -/
structure Event where
  depth : Nat
  loc : Int
  offset : Nat
  deriving Repr, DecidableEq

/-- Modelled from the spec: base-128 varint encoding of a natural number,
least-significant group first, continuation bit 128 (§4.1 suggests
varint-encoding all three fields of an event); the fuel argument only drives
structural recursion and never runs out when it starts at `n`. -/
def encodeVarintFuel : Nat → Nat → List Nat
  | 0, n => [n]
  | fuel + 1, n =>
    if n < 128 then [n] else (n % 128 + 128) :: encodeVarintFuel fuel (n / 128)

/-- Modelled from the spec: base-128 varint encoding of a natural number. -/
def encodeVarint (n : Nat) : List Nat :=
  encodeVarintFuel n n

/-- Modelled from the spec: varint decoding; returns the value and the
remaining bytes, or `none` on a truncated input. -/
def decodeVarint : List Nat → Option (Nat × List Nat)
  | [] => none
  | b :: rest =>
    if b < 128 then some (b, rest)
    else
      match decodeVarint rest with
      | none => none
      | some (v, r) => some ((b - 128) + 128 * v, r)

/-- Modelled from the spec: zigzag map sending an opaque (possibly negative)
`location_id` to a natural number so it can be varint-encoded. -/
def zigzag (i : Int) : Nat :=
  if 0 ≤ i then 2 * i.toNat else 2 * (-i).toNat - 1

/-- Modelled from the spec: inverse of `zigzag`. -/
def unzigzag (n : Nat) : Int :=
  if n % 2 = 0 then (n / 2 : Nat) else -((n / 2 : Nat) + 1)

/-- Modelled from the spec: the encoded block payload (§4.1): events are
serialized in order as `varint depth ++ varint (zigzag loc) ++ varint delta`,
where `delta` is the offset difference to the previous event (offsets are
supplied in non-decreasing order, so deltas are non-negative). -/
def encodeFrom (prev : Nat) : List Event → List Nat
  | [] => []
  | e :: rest =>
    encodeVarint e.depth ++ encodeVarint (zigzag e.loc) ++
      encodeVarint (e.offset - prev) ++ encodeFrom e.offset rest

/-- Modelled from the spec: full payload encoding of an event list. -/
def encodeEvents (evs : List Event) : List Nat :=
  encodeFrom 0 evs

/-- Modelled from the spec: decode the payload back into events; `fuel` bounds
the number of parsed events (one event consumes at least three bytes, so the
byte count is always enough fuel). -/
def decodeEventsAux : Nat → List Nat → Nat → List Event
  | 0, _, _ => []
  | _ + 1, [], _ => []
  | fuel + 1, bs, prev =>
    match decodeVarint bs with
    | none => []
    | some (d, bs1) =>
      match decodeVarint bs1 with
      | none => []
      | some (zl, bs2) =>
        match decodeVarint bs2 with
        | none => []
        | some (delta, bs3) =>
          { depth := d, loc := unzigzag zl, offset := prev + delta } ::
            decodeEventsAux fuel bs3 (prev + delta)

/-- Modelled from the spec: decode a whole payload into its event list. -/
def decodeEvents (payload : List Nat) : List Event :=
  decodeEventsAux payload.length payload 0

/-- Modelled from the spec (§4.2): process one event — truncate the stack to
length `depth+1` (extending with a default entry if shorter), then set index
`depth` to `location_id`. -/
def applyEvent (st : List Int) (d : Nat) (loc : Int) : List Int :=
  ((st.take (d + 1)) ++ List.replicate (d + 1 - (st.take (d + 1)).length) 0).set d loc

/-- Modelled from the spec (§4.2): reference replay — process, in stored
order, every event whose offset is `≤ relativeOffset` (inclusive at
equality), starting from the empty stack. -/
def replayStack (evs : List Event) (relativeOffset : Nat) : List Int :=
  (evs.filter (fun e => e.offset ≤ relativeOffset)).foldl
    (fun st e => applyEvent st e.depth e.loc) []

/-- Modelled from the spec (§4.2): `reconstruct(payload, relative_offset)` —
decode the payload and replay it up to the given offset. -/
def reconstruct (payload : List Nat) (relativeOffset : Nat) : List Int :=
  replayStack (decodeEvents payload) relativeOffset

/-- Events are in non-decreasing offset order, all offsets at least `p`. -/
def monoFrom (p : Nat) : List Event → Bool
  | [] => true
  | e :: rest => decide (p ≤ e.offset) && monoFrom e.offset rest

theorem decodeVarint_encodeVarintFuel (fuel : Nat) :
    ∀ (n : Nat), n ≤ fuel → ∀ (rest : List Nat),
      decodeVarint (encodeVarintFuel fuel n ++ rest) = some (n, rest) := by
  induction fuel with
  | zero =>
    intro n hn rest
    have : n = 0 := by omega
    subst this
    simp [encodeVarintFuel, decodeVarint]
  | succ fuel ih =>
    intro n hn rest
    by_cases h : n < 128
    · rw [encodeVarintFuel, if_pos h]
      simp [decodeVarint, h]
    · rw [encodeVarintFuel, if_neg h]
      have hdiv : n / 128 ≤ fuel := by
        have h1 : n / 128 < n := Nat.div_lt_self (by omega) (by omega)
        omega
      have hrec := ih (n / 128) hdiv rest
      simp only [List.cons_append, decodeVarint, List.append_eq]
      rw [if_neg (by omega), hrec]
      have h2 : n % 128 + 128 - 128 + 128 * (n / 128) = n := by omega
      change some (n % 128 + 128 - 128 + 128 * (n / 128), rest) = some (n, rest)
      rw [h2]

theorem decodeVarint_encodeVarint (n : Nat) (rest : List Nat) :
    decodeVarint (encodeVarint n ++ rest) = some (n, rest) :=
  decodeVarint_encodeVarintFuel n n (Nat.le_refl n) rest

theorem unzigzag_zigzag (i : Int) : unzigzag (zigzag i) = i := by
  by_cases h : 0 ≤ i
  · rw [zigzag, if_pos h]
    rw [unzigzag, if_pos (by omega)]
    simp only [Nat.mul_div_cancel_left _ (by omega : 0 < 2)]
    omega
  · rw [zigzag, if_neg h]
    have h1 : 1 ≤ (-i).toNat := by omega
    rw [unzigzag, if_neg (by omega)]
    have h2 : (2 * (-i).toNat - 1) / 2 = (-i).toNat - 1 := by omega
    rw [h2]
    omega

theorem encodeVarint_length_pos (n : Nat) : 1 ≤ (encodeVarint n).length := by
  rw [encodeVarint]
  cases n with
  | zero => simp [encodeVarintFuel]
  | succ m =>
    rw [encodeVarintFuel]
    split <;> simp

theorem length_le_encodeFrom (p : Nat) (evs : List Event) :
    evs.length ≤ (encodeFrom p evs).length := by
  induction evs generalizing p with
  | nil => simp [encodeFrom]
  | cons e rest ih =>
    simp only [encodeFrom, List.length_append, List.length_cons]
    have h1 := encodeVarint_length_pos e.depth
    have := ih e.offset
    omega

theorem decodeEventsAux_encodeFrom (evs : List Event) :
    ∀ (prev fuel : Nat), evs.length ≤ fuel → monoFrom prev evs = true →
      decodeEventsAux fuel (encodeFrom prev evs) prev = evs := by
  induction evs with
  | nil =>
    intro prev fuel _ _
    cases fuel <;> simp [encodeFrom, decodeEventsAux]
  | cons e rest ih =>
    intro prev fuel hfuel hmono
    simp only [monoFrom, Bool.and_eq_true, decide_eq_true_eq] at hmono
    obtain ⟨hle, hmono'⟩ := hmono
    obtain ⟨f, rfl⟩ : ∃ f, fuel = f + 1 := by
      cases fuel with
      | zero => simp at hfuel
      | succ f => exact ⟨f, rfl⟩
    have hne : encodeFrom prev (e :: rest) ≠ [] := by
      simp only [encodeFrom]
      intro hcontra
      have := encodeVarint_length_pos e.depth
      have := congrArg List.length hcontra
      simp only [List.length_append, List.length_nil] at this
      omega
    rw [encodeFrom]
    rw [show encodeVarint e.depth ++ encodeVarint (zigzag e.loc) ++
          encodeVarint (e.offset - prev) ++ encodeFrom e.offset rest =
        encodeVarint e.depth ++ (encodeVarint (zigzag e.loc) ++
          (encodeVarint (e.offset - prev) ++ encodeFrom e.offset rest)) by
      simp [List.append_assoc]]
    match hb : encodeVarint e.depth ++ (encodeVarint (zigzag e.loc) ++
        (encodeVarint (e.offset - prev) ++ encodeFrom e.offset rest)) with
    | [] =>
      have := encodeVarint_length_pos e.depth
      have := congrArg List.length hb
      simp only [List.length_append, List.length_nil] at this
      omega
    | b :: bs =>
      rw [decodeEventsAux]
      rw [← hb]
      simp only [decodeVarint_encodeVarint]
      have hoff : prev + (e.offset - prev) = e.offset := by omega
      simp only [hoff, unzigzag_zigzag]
      have hlen : rest.length ≤ f := by
        simp only [List.length_cons] at hfuel
        omega
      rw [ih e.offset f hlen hmono']
      exact fun hcontra => List.noConfusion hcontra

/-- Decoding inverts encoding for offset-ordered event lists. -/
theorem decodeEvents_encodeEvents (evs : List Event)
    (h : monoFrom 0 evs = true) : decodeEvents (encodeEvents evs) = evs := by
  unfold decodeEvents encodeEvents
  exact decodeEventsAux_encodeFrom evs 0 _ (length_le_encodeFrom 0 evs) h

/-- Reconstruction from the encoded payload agrees with the reference replay. -/
theorem reconstruct_encodeEvents (evs : List Event)
    (h : monoFrom 0 evs = true) (r : Nat) :
    reconstruct (encodeEvents evs) r = replayStack evs r := by
  unfold reconstruct
  rw [decodeEvents_encodeEvents evs h]

/-- Modelled from the spec: the merge-point log builder (`CodemapBuilder` in
`codemap.py`, absent from the sources); its state is the buffered event list
(§4.1). -/
structure CodemapBuilder where
  events : List Event
  deriving Repr, DecidableEq

/-- A freshly constructed builder has an empty buffer. -/
def CodemapBuilder.empty : CodemapBuilder := ⟨[]⟩

/-- Modelled from the spec: `debug_merge_point(depth, location_id, offset)`
appends one event to the builder's buffer (§4.1, §6). -/
def debug_merge_point (b : CodemapBuilder) (depth : Nat) (loc : Int)
    (offset : Nat) : CodemapBuilder :=
  ⟨b.events ++ [⟨depth, loc, offset⟩]⟩

/-- Run a sequence of `debug_merge_point` calls on a builder. -/
def runMergePoints (b : CodemapBuilder) (evs : List Event) : CodemapBuilder :=
  evs.foldl (fun b e => debug_merge_point b e.depth e.loc e.offset) b

/-- Modelled from the spec: a Codemap Block
`(start_address, byte_length, encoded_payload)` (§3). -/
structure CodemapBlock where
  start : Int
  length : Nat
  payload : List Nat
  deriving Repr, DecidableEq

/-- Modelled from the spec: `get_final_bytecode(start_address, byte_length)`
produces the immutable Codemap Block holding the encoded payload and resets
the builder's buffer to the fresh state (§4.1). -/
def get_final_bytecode (b : CodemapBuilder) (start : Int) (size : Nat) :
    CodemapBlock × CodemapBuilder :=
  (⟨start, size, encodeEvents b.events⟩, CodemapBuilder.empty)

/-- Modelled from the spec: a Frame-Depth Block
`(start_address, stop_address, offsets, depths)` (§3). -/
structure FrameDepthBlock where
  start : Int
  stop : Int
  offsets : List Nat
  depths : List Int
  deriving Repr, DecidableEq

/-- Modelled from the spec: the Block Index / Storage (`CodemapStorage`);
owns the live blocks of both kinds, in independent namespaces (§4.4). -/
structure CodemapStorage where
  codemaps : List CodemapBlock
  depthMaps : List FrameDepthBlock
  deriving Repr, DecidableEq

/-- Modelled from the spec: `setup()` initializes empty registries for both
block kinds; re-initialization discards prior contents (§4.4). -/
def CodemapStorage.setup (_s : CodemapStorage) : CodemapStorage := ⟨[], []⟩

/-- Modelled from the spec: `teardown()` / `free()` releases all registries;
subsequent queries behave as if nothing were ever registered (§4.4). -/
def CodemapStorage.free (_s : CodemapStorage) : CodemapStorage := ⟨[], []⟩

/-- Modelled from the spec: `register_codemap` inserts a finalized Codemap
Block into the index (§4.4). -/
def register_codemap (s : CodemapStorage) (blk : CodemapBlock) :
    CodemapStorage :=
  { s with codemaps := s.codemaps ++ [blk] }

/-- Modelled from the spec: `register_frame_depth_map(start, stop, offsets,
depths)` inserts a Frame-Depth Block (§4.4). -/
def register_frame_depth_map (s : CodemapStorage) (start stop : Int)
    (offsets : List Nat) (depths : List Int) : CodemapStorage :=
  { s with depthMaps := s.depthMaps ++ [⟨start, stop, offsets, depths⟩] }

/-- Modelled from the spec: `free_block_range(start, stop)` / `free_asm_block`
removes, from both namespaces independently, any block whose registered range
is exactly `[start, stop)` (§4.4). -/
def free_asm_block (s : CodemapStorage) (start stop : Int) : CodemapStorage :=
  { codemaps := s.codemaps.filter
      (fun blk => !(decide (blk.start = start) &&
        decide (blk.start + (blk.length : Int) = stop))),
    depthMaps := s.depthMaps.filter
      (fun blk => !(decide (blk.start = start) && decide (blk.stop = stop))) }

/-- A Codemap Block covers an address when it lies in
`[start, start+length)`. -/
def coversCodemap (blk : CodemapBlock) (a : Int) : Prop :=
  blk.start ≤ a ∧ a < blk.start + (blk.length : Int)

instance (blk : CodemapBlock) (a : Int) : Decidable (coversCodemap blk a) :=
  inferInstanceAs (Decidable (_ ∧ _))

/-- A Frame-Depth Block covers an address when it lies in `[start, stop)`. -/
def coversDepth (blk : FrameDepthBlock) (a : Int) : Prop :=
  blk.start ≤ a ∧ a < blk.stop

instance (blk : FrameDepthBlock) (a : Int) : Decidable (coversDepth blk a) :=
  inferInstanceAs (Decidable (_ ∧ _))

/-- Modelled from the spec: `find_codemap_block(address)` /
`find_codemap_at_addr` returns the live Codemap Block whose
`[start, start+length)` contains the address, else not-found (§4.4). -/
def find_codemap_at_addr (s : CodemapStorage) (a : Int) :
    Option CodemapBlock :=
  s.codemaps.find? (fun blk => decide (coversCodemap blk a))

/-- Modelled from the spec: `unpack_traceback(address)` looks up the covering
Codemap Block; if none, returns the empty sequence, otherwise decodes at the
relative offset (§4.4). -/
def unpack_traceback (s : CodemapStorage) (a : Int) : List Int :=
  match find_codemap_at_addr s a with
  | none => []
  | some blk => reconstruct blk.payload (a - blk.start).toNat

/-- Modelled from the spec: floor lookup over the `(offset, depth)` table —
the value of the last (hence greatest-index) pair whose offset is
`≤ relativeOffset`, else the accumulator (§4.3). -/
def floorLookupAux (pairs : List (Nat × Int)) (rel : Nat) (acc : Int) : Int :=
  match pairs with
  | [] => acc
  | (o, d) :: rest => if o ≤ rel then floorLookupAux rest rel d else acc

/-- Modelled from the spec: `stack_depth_at_loc(address)` looks up the
covering Frame-Depth Block; if none, returns the sentinel `-1`, otherwise
performs the floor lookup at the relative offset (§4.4). -/
def stack_depth_at_loc (s : CodemapStorage) (a : Int) : Int :=
  match s.depthMaps.find? (fun blk => decide (coversDepth blk a)) with
  | none => -1
  | some blk => floorLookupAux (blk.offsets.zip blk.depths)
      (a - blk.start).toNat (-1)

/-- The fresh, never-initialized storage (`CodemapStorage()` in the tests). -/
def emptyStorage : CodemapStorage := ⟨[], []⟩

/-- Two Codemap Blocks occupy disjoint address ranges. -/
def codemapDisjoint (b1 b2 : CodemapBlock) : Prop :=
  b1.start + (b1.length : Int) ≤ b2.start ∨ b2.start + (b2.length : Int) ≤ b1.start

instance (b1 b2 : CodemapBlock) : Decidable (codemapDisjoint b1 b2) :=
  inferInstanceAs (Decidable (_ ∨ _))

/-- Two addresses lie inside one and the same live Codemap Block. -/
def inSameBlock (S : CodemapStorage) (a b : Int) : Prop :=
  ∃ blk ∈ S.codemaps, coversCodemap blk a ∧ coversCodemap blk b

instance (S : CodemapStorage) (a b : Int) : Decidable (inSameBlock S a b) :=
  List.decidableBEx _ S.codemaps

theorem codemapDisjoint_symm : Symmetric codemapDisjoint := by
  intro b1 b2 h
  rcases h with h | h
  · exact Or.inr h
  · exact Or.inl h

theorem runMergePoints_events (b : CodemapBuilder) (evs : List Event) :
    (runMergePoints b evs).events = b.events ++ evs := by
  induction evs generalizing b with
  | nil => simp [runMergePoints]
  | cons e rest ih =>
    show (runMergePoints (debug_merge_point b e.depth e.loc e.offset) rest).events = _
    rw [ih]
    simp [debug_merge_point]

theorem monoFrom_anti (p q : Nat) (l : List Event) (hpq : q ≤ p)
    (h : monoFrom p l = true) : monoFrom q l = true := by
  cases l with
  | nil => rfl
  | cons e rest =>
    simp only [monoFrom, Bool.and_eq_true, decide_eq_true_eq] at h ⊢
    exact ⟨by omega, h.2⟩

theorem monoFrom_drop_dup (e e2 : Event) (evs2 : List Event) :
    ∀ (evs1 : List Event) (p : Nat),
      monoFrom p (evs1 ++ e :: e2 :: evs2) = true →
      monoFrom p (evs1 ++ e :: evs2) = true ∧ e.offset ≤ e2.offset := by
  intro evs1
  induction evs1 with
  | nil =>
    intro p h
    simp only [List.nil_append, monoFrom, Bool.and_eq_true,
      decide_eq_true_eq] at h ⊢
    exact ⟨⟨h.1, monoFrom_anti e2.offset e.offset evs2 h.2.1 h.2.2⟩, h.2.1⟩
  | cons x xs ih =>
    intro p h
    simp only [List.cons_append, monoFrom, Bool.and_eq_true,
      decide_eq_true_eq] at h ⊢
    obtain ⟨hpx, hrest⟩ := h
    obtain ⟨h1, h2⟩ := ih x.offset hrest
    exact ⟨⟨hpx, h1⟩, h2⟩

theorem applyEvent_length (st : List Int) (d : Nat) (loc : Int) :
    (applyEvent st d loc).length = d + 1 := by
  unfold applyEvent
  rw [List.length_set, List.length_append, List.length_replicate]
  have h := List.length_take (d + 1) st
  omega

theorem applyEvent_applyEvent (st : List Int) (d : Nat) (loc : Int) :
    applyEvent (applyEvent st d loc) d loc = applyEvent st d loc := by
  have hlen := applyEvent_length st d loc
  conv_lhs => rw [applyEvent]
  rw [List.take_of_length_le (le_of_eq hlen), hlen]
  simp only [Nat.sub_self, List.replicate_zero, List.append_nil]
  conv_lhs => rw [applyEvent]
  conv_rhs => rw [applyEvent]
  rw [List.set_set]

theorem replayStack_dup (evs1 evs2 : List Event) (d : Nat) (loc : Int)
    (o o2 r : Nat) (h : o ≤ o2) :
    replayStack (evs1 ++ ⟨d, loc, o⟩ :: ⟨d, loc, o2⟩ :: evs2) r =
      replayStack (evs1 ++ ⟨d, loc, o⟩ :: evs2) r := by
  unfold replayStack
  rw [List.filter_append, List.filter_append, List.filter_cons,
    List.filter_cons, List.filter_cons]
  simp only [decide_eq_true_eq]
  by_cases ho : o ≤ r
  · by_cases ho2 : o2 ≤ r
    · rw [if_pos ho, if_pos ho2, if_pos ho]
      rw [List.foldl_append, List.foldl_append, List.foldl_cons,
        List.foldl_cons, List.foldl_cons]
      rw [applyEvent_applyEvent]
    · rw [if_pos ho, if_neg ho2, if_pos ho]
  · have ho2 : ¬ o2 ≤ r := by omega
    rw [if_neg ho, if_neg ho2, if_neg ho]

theorem find?_filter_eq {α : Type} (l : List α) (p q : α → Bool)
    (h : ∀ x ∈ l, p x = true → q x = true) :
    (l.filter q).find? p = l.find? p := by
  induction l with
  | nil => rfl
  | cons x xs ih =>
    have ih' := ih (fun y hy => h y (List.mem_cons_of_mem x hy))
    rw [List.filter_cons]
    by_cases hq : q x = true
    · rw [if_pos hq]
      by_cases hp : p x = true
      · rw [List.find?_cons_of_pos _ hp, List.find?_cons_of_pos _ hp]
      · rw [List.find?_cons_of_neg _ hp, List.find?_cons_of_neg _ hp, ih']
    · rw [if_neg hq]
      have hp : ¬ p x = true := fun hp => hq (h x (List.mem_cons_self x xs) hp)
      rw [List.find?_cons_of_neg _ hp, ih']

theorem floorLookupAux_const (rel : Nat) :
    ∀ (os : List Nat) (ds : List Int) (acc : Int),
      (∀ j, j < os.length → rel < os.getD j 0) →
      floorLookupAux (os.zip ds) rel acc = acc := by
  intro os
  induction os with
  | nil => intro ds acc _; cases ds <;> rfl
  | cons o os ih =>
    intro ds acc hj
    cases ds with
    | nil => rfl
    | cons d ds =>
      have h0 : rel < o := hj 0 (by simp)
      show floorLookupAux ((o, d) :: os.zip ds) rel acc = acc
      rw [floorLookupAux, if_neg (by omega)]

theorem floorLookupAux_greatest (offsets : List Nat) :
    ∀ (depths : List Int) (rel : Nat) (acc : Int) (i : Nat),
      List.Pairwise (fun x y => x < y) offsets →
      offsets.length = depths.length →
      i < offsets.length →
      offsets.getD i 0 ≤ rel →
      (∀ j, i < j → j < offsets.length → rel < offsets.getD j 0) →
      floorLookupAux (offsets.zip depths) rel acc = depths.getD i (-1) := by
  induction offsets with
  | nil => intro depths rel acc i _ _ hi _ _; simp at hi
  | cons o os ih =>
    intro depths rel acc i hpair hlen hi hle hgt
    cases depths with
    | nil => simp at hlen
    | cons d ds =>
      show floorLookupAux ((o, d) :: os.zip ds) rel acc = (d :: ds).getD i (-1)
      cases i with
      | zero =>
        have ho : o ≤ rel := hle
        rw [floorLookupAux, if_pos ho]
        have hrest : ∀ j, j < os.length → rel < os.getD j 0 := by
          intro j hj
          have := hgt (j + 1) (by omega) (by simp; omega)
          simpa using this
        rw [floorLookupAux_const rel os ds d hrest]
        rfl
      | succ i2 =>
        have hi2 : i2 < os.length := by simp at hi; omega
        have hmem : os.getD i2 0 ∈ os := by
          rw [List.getD_eq_getElem os 0 hi2]
          exact List.getElem_mem hi2
        have ho : o < os.getD i2 0 := (List.pairwise_cons.mp hpair).1 _ hmem
        have hle2 : os.getD i2 0 ≤ rel := by simpa using hle
        rw [floorLookupAux, if_pos (by omega)]
        have hlen2 : os.length = ds.length := by simpa using hlen
        have hgt2 : ∀ j, i2 < j → j < os.length → rel < os.getD j 0 := by
          intro j h1 h2
          have := hgt (j + 1) (by omega) (by simp; omega)
          simpa using this
        rw [ih ds rel d i2 (List.pairwise_cons.mp hpair).2 hlen2 hi2 hle2 hgt2]
        rfl

theorem get_final_payload (evs : List Event) (start : Int) (size : Nat) :
    (get_final_bytecode (runMergePoints CodemapBuilder.empty evs) start size).1 =
      ⟨start, size, encodeEvents evs⟩ := by
  show (⟨start, size,
      encodeEvents (runMergePoints CodemapBuilder.empty evs).events⟩ :
    CodemapBlock) = _
  rw [runMergePoints_events]
  rfl

theorem unpack_single_block (start : Int) (size : Nat) (payload : List Nat)
    (addr : Int) :
    unpack_traceback (register_codemap emptyStorage.setup
        ⟨start, size, payload⟩) addr =
      if coversCodemap ⟨start, size, payload⟩ addr then
        reconstruct payload (addr - start).toNat
      else [] := by
  unfold unpack_traceback find_codemap_at_addr register_codemap emptyStorage
    CodemapStorage.setup
  simp only [List.nil_append]
  by_cases hcov : coversCodemap ⟨start, size, payload⟩ addr
  · rw [@List.find?_cons_of_pos _ (fun blk => decide (coversCodemap blk addr))
      _ [] (decide_eq_true hcov), if_pos hcov]
  · rw [@List.find?_cons_of_neg _ (fun blk => decide (coversCodemap blk addr))
      _ [] (by simpa using hcov), List.find?_nil, if_neg hcov]

/-- The event sequence of the shipped `test_codemaps` block `[100, 140)`. -/
def eventsExample : List Event :=
  [⟨0, 102, 0⟩, ⟨1, 104, 15⟩, ⟨2, 106, 20⟩, ⟨1, 104, 30⟩, ⟨0, 102, 35⟩]

/-- The storage holding the block built from `eventsExample` over
`[100, 140)`. -/
def storageExample : CodemapStorage :=
  register_codemap emptyStorage.setup
    (get_final_bytecode (runMergePoints CodemapBuilder.empty eventsExample)
      100 40).1

/-- The three-block frame-depth configuration of
`test_find_jit_frame_depth`. -/
def depthStorageExample : CodemapStorage :=
  register_frame_depth_map
    (register_frame_depth_map
      (register_frame_depth_map emptyStorage.setup 11 26 [0, 5, 10] [1, 2, 3])
      30 41 [0, 5, 10] [4, 5, 6])
    0 11 [0, 5, 10] [7, 8, 9]

/-- A storage holding one registered Codemap Block `[100, 120)`. -/
def singleBlockStorage : CodemapStorage :=
  register_codemap emptyStorage.setup ⟨100, 20, [13, 14, 15]⟩

/-- C1: for every event sequence supplied to the builder via
`debug_merge_point` in non-decreasing offset order and finalized with
`get_final_bytecode`, and for every relative offset, reconstructing the
traceback from the encoded payload yields exactly the stack computed by the
reference replay of §4.2 (truncate to `depth+1`, set index `depth`,
inclusive at offset equality). -/
theorem builder_roundtrip_replays_reference (evs : List Event) (start : Int)
    (size : Nat) (h : monoFrom 0 evs = true) (r : Nat) :
    reconstruct ((get_final_bytecode (runMergePoints CodemapBuilder.empty evs)
      start size).1).payload r = replayStack evs r := by
  rw [get_final_payload]
  exact reconstruct_encodeEvents evs h r

/-- Witness for C1 at the concrete `test_codemaps` event sequence. -/
theorem builder_roundtrip_replays_reference_witness :
    monoFrom 0 eventsExample = true ∧
      reconstruct ((get_final_bytecode
        (runMergePoints CodemapBuilder.empty eventsExample) 100 40).1).payload
          21 = replayStack eventsExample 21 :=
  ⟨by decide,
    builder_roundtrip_replays_reference eventsExample 100 40 (by decide) 21⟩

/-- C2: for the block built from events
`(0,102,0),(1,104,15),(2,106,20),(1,104,30),(0,102,35)` registered over
`[100, 140)`, `unpack_traceback` returns the tracebacks asserted by
`test_codemaps`. -/
theorem unpack_traceback_example_block :
    unpack_traceback storageExample 110 = [102] ∧
    unpack_traceback storageExample 117 = [102, 104] ∧
    unpack_traceback storageExample 121 = [102, 104, 106] ∧
    unpack_traceback storageExample 131 = [102, 104] ∧
    unpack_traceback storageExample 137 = [102] := by
  refine ⟨by decide, by decide, by decide, by decide, by decide⟩

/-- C3: `stack_depth_at_loc` locates the covering live frame-depth block and
performs a floor lookup in it (greatest index `i` with
`offsets[i] ≤ relative_offset`, returning `depths[i]`); on the three-block
configuration it returns the asserted values, and the sentinel `-1` for
every address covered by no block. -/
theorem stack_depth_at_loc_floor_lookup :
    (∀ (S : CodemapStorage) (a : Int) (blk : FrameDepthBlock) (i : Nat),
      S.depthMaps.find? (fun b => decide (coversDepth b a)) = some blk →
      List.Pairwise (fun x y => x < y) blk.offsets →
      blk.offsets.length = blk.depths.length →
      i < blk.offsets.length →
      blk.offsets.getD i 0 ≤ (a - blk.start).toNat →
      (∀ j, i < j → j < blk.offsets.length →
        (a - blk.start).toNat < blk.offsets.getD j 0) →
      stack_depth_at_loc S a = blk.depths.getD i (-1)) ∧
    stack_depth_at_loc depthStorageExample 10 = 9 ∧
    stack_depth_at_loc depthStorageExample 11 = 1 ∧
    stack_depth_at_loc depthStorageExample 25 = 3 ∧
    stack_depth_at_loc depthStorageExample 26 = -1 ∧
    stack_depth_at_loc depthStorageExample (-3) = -1 ∧
    (∀ (S : CodemapStorage) (a : Int),
      (∀ blk ∈ S.depthMaps, ¬ coversDepth blk a) →
      stack_depth_at_loc S a = -1) := by
  refine ⟨?_, by decide, by decide, by decide, by decide, by decide, ?_⟩
  · intro S a blk i hfind hpair hlen hi hle hgt
    unfold stack_depth_at_loc
    rw [hfind]
    exact floorLookupAux_greatest blk.offsets blk.depths _ (-1) i hpair hlen
      hi hle hgt
  · intro S a h
    unfold stack_depth_at_loc
    have hnone : S.depthMaps.find? (fun b => decide (coversDepth b a)) =
        none := by
      rw [List.find?_eq_none]
      intro x hx
      simp only [decide_eq_true_eq]
      exact h x hx
    rw [hnone]

/-- Witness for C3: floor lookup inside the `[11, 26)` block at address 17
(relative offset 6, greatest matching index 1, depth 2), and the sentinel on
the freshly set-up storage. -/
theorem stack_depth_at_loc_floor_lookup_witness :
    stack_depth_at_loc depthStorageExample 17 = 2 ∧
    stack_depth_at_loc emptyStorage.setup 7 = -1 := by
  constructor
  · have h := stack_depth_at_loc_floor_lookup.1 depthStorageExample 17
      ⟨11, 26, [0, 5, 10], [1, 2, 3]⟩ 1 (by decide) (by decide) (by decide)
      (by decide) (by decide)
      (fun j h1 h2 => by
        have h3 : j < 3 := h2
        have hj : j = 2 := by omega
        subst hj
        decide)
    exact h
  · exact stack_depth_at_loc_floor_lookup.2.2.2.2.2.2 emptyStorage.setup 7
      (by decide)

/-- C4: `free_asm_block(start, stop)` removes exactly the live blocks whose
registered range equals `[start, stop)` (in each namespace independently),
leaves every other live block's query results unchanged, and removes nothing
from a namespace when no live block matches the exact bounds; concretely,
after freeing `[11, 26)` in the three-block configuration the freed
addresses answer `-1` while the other blocks still answer `9` and `6`. -/
theorem free_asm_block_exact_removal :
    (stack_depth_at_loc (free_asm_block depthStorageExample 11 26) 11 = -1 ∧
      stack_depth_at_loc (free_asm_block depthStorageExample 11 26) 13 = -1 ∧
      stack_depth_at_loc (free_asm_block depthStorageExample 11 26) 10 = 9 ∧
      stack_depth_at_loc (free_asm_block depthStorageExample 11 26) 40 = 6) ∧
    (∀ (S : CodemapStorage) (start stop : Int),
      (∀ blk ∈ S.depthMaps, ¬ (blk.start = start ∧ blk.stop = stop)) →
      (free_asm_block S start stop).depthMaps = S.depthMaps) ∧
    (∀ (S : CodemapStorage) (start stop : Int),
      (∀ blk ∈ S.codemaps,
        ¬ (blk.start = start ∧ blk.start + (blk.length : Int) = stop)) →
      (free_asm_block S start stop).codemaps = S.codemaps) ∧
    (∀ (S : CodemapStorage) (start stop a : Int),
      (∀ blk ∈ S.depthMaps, coversDepth blk a →
        ¬ (blk.start = start ∧ blk.stop = stop)) →
      stack_depth_at_loc (free_asm_block S start stop) a =
        stack_depth_at_loc S a) ∧
    (∀ (S : CodemapStorage) (start stop a : Int),
      (∀ blk ∈ S.codemaps, coversCodemap blk a →
        ¬ (blk.start = start ∧ blk.start + (blk.length : Int) = stop)) →
      unpack_traceback (free_asm_block S start stop) a =
        unpack_traceback S a) := by
  refine ⟨⟨by decide, by decide, by decide, by decide⟩, ?_, ?_, ?_, ?_⟩
  · intro S start stop h
    show S.depthMaps.filter _ = S.depthMaps
    rw [List.filter_eq_self]
    intro blk hmem
    have hb := h blk hmem
    by_cases h1 : blk.start = start
    · have h2 : blk.stop ≠ stop := fun h2 => hb ⟨h1, h2⟩
      simp [h1, h2]
    · simp [h1]
  · intro S start stop h
    show S.codemaps.filter _ = S.codemaps
    rw [List.filter_eq_self]
    intro blk hmem
    have hb := h blk hmem
    by_cases h1 : blk.start = start
    · have h2 : blk.start + (blk.length : Int) ≠ stop := fun h2 => hb ⟨h1, h2⟩
      rw [h1] at h2
      simp [h1, h2]
    · simp [h1]
  · intro S start stop a h
    unfold stack_depth_at_loc
    have heq : (free_asm_block S start stop).depthMaps.find?
          (fun b => decide (coversDepth b a)) =
        S.depthMaps.find? (fun b => decide (coversDepth b a)) := by
      show (S.depthMaps.filter _).find? _ = _
      apply find?_filter_eq
      intro x hx hpx
      have hcov : coversDepth x a := of_decide_eq_true hpx
      have hb := h x hx hcov
      by_cases h1 : x.start = start
      · have h2 : x.stop ≠ stop := fun h2 => hb ⟨h1, h2⟩
        simp [h1, h2]
      · simp [h1]
    rw [heq]
  · intro S start stop a h
    unfold unpack_traceback find_codemap_at_addr
    have heq : (free_asm_block S start stop).codemaps.find?
          (fun b => decide (coversCodemap b a)) =
        S.codemaps.find? (fun b => decide (coversCodemap b a)) := by
      show (S.codemaps.filter _).find? _ = _
      apply find?_filter_eq
      intro x hx hpx
      have hcov : coversCodemap x a := of_decide_eq_true hpx
      have hb := h x hx hcov
      by_cases h1 : x.start = start
      · have h2 : x.start + (x.length : Int) ≠ stop := fun h2 => hb ⟨h1, h2⟩
        rw [h1] at h2
        simp [h1, h2]
      · simp [h1]
    rw [heq]

/-- Witness for C4: freeing a range matching no block removes nothing, and
queries into other blocks are undisturbed. -/
theorem free_asm_block_exact_removal_witness :
    (free_asm_block depthStorageExample 100 200).depthMaps =
      depthStorageExample.depthMaps ∧
    (free_asm_block storageExample 300 400).codemaps =
      storageExample.codemaps ∧
    stack_depth_at_loc (free_asm_block depthStorageExample 11 26) 40 =
      stack_depth_at_loc depthStorageExample 40 ∧
    unpack_traceback (free_asm_block storageExample 300 400) 110 =
      unpack_traceback storageExample 110 :=
  ⟨free_asm_block_exact_removal.2.1 depthStorageExample 100 200 (by decide),
    free_asm_block_exact_removal.2.2.1 storageExample 300 400 (by decide),
    free_asm_block_exact_removal.2.2.2.1 depthStorageExample 11 26 40
      (by decide),
    free_asm_block_exact_removal.2.2.2.2 storageExample 300 400 110
      (by decide)⟩

/-- C5: for every address covered by no live Codemap Block — never
registered, or formerly inside a block freed by its exact bounds —
`unpack_traceback` returns the empty sequence. -/
theorem unpack_traceback_uncovered_empty :
    (∀ (S : CodemapStorage) (a : Int),
      find_codemap_at_addr S a = none → unpack_traceback S a = []) ∧
    (∀ (S : CodemapStorage) (start stop a : Int),
      (∀ blk ∈ S.codemaps, coversCodemap blk a →
        blk.start = start ∧ blk.start + (blk.length : Int) = stop) →
      unpack_traceback (free_asm_block S start stop) a = []) := by
  constructor
  · intro S a h
    unfold unpack_traceback
    rw [h]
  · intro S start stop a h
    unfold unpack_traceback
    have hnone : find_codemap_at_addr (free_asm_block S start stop) a =
        none := by
      unfold find_codemap_at_addr
      rw [List.find?_eq_none]
      intro x hx
      intro hpx
      have hcov : coversCodemap x a := of_decide_eq_true hpx
      have hmem := List.mem_filter.mp hx
      obtain ⟨he1, he2⟩ := h x hmem.1 hcov
      have hkeep := hmem.2
      rw [he1] at he2
      simp [he1, he2] at hkeep
    rw [hnone]

/-- Witness for C5: a never-registered address and a freed address both
answer the empty traceback. -/
theorem unpack_traceback_uncovered_empty_witness :
    unpack_traceback emptyStorage.setup 5 = [] ∧
    unpack_traceback (free_asm_block storageExample 100 140) 110 = [] :=
  ⟨unpack_traceback_uncovered_empty.1 emptyStorage.setup 5 (by decide),
    unpack_traceback_uncovered_empty.2 storageExample 100 140 110 (by decide)⟩

/-- C6 counterexample: with one non-overlapping registered block `[100, 120)`
the addresses 0 and 50 both yield the not-found result, so
`find_codemap_at_addr` gives equal answers although the two addresses do not
lie in the same block's range — the claimed equivalence fails as stated. -/
theorem find_codemap_at_addr_iff_counterexample :
    List.Pairwise codemapDisjoint singleBlockStorage.codemaps ∧
    ¬ ((find_codemap_at_addr singleBlockStorage 0 =
        find_codemap_at_addr singleBlockStorage 50) ↔
      inSameBlock singleBlockStorage 0 50) := by
  constructor
  · decide
  · decide

/-- C6 (amended): for non-overlapping registered blocks,
`find_codemap_at_addr` answers at two addresses are equal *and found* iff
the addresses lie in the same block's `[start, start+length)`; every address
outside all live blocks yields the not-found result. -/
theorem find_codemap_at_addr_same_block (S : CodemapStorage) (a b : Int)
    (hdisj : List.Pairwise codemapDisjoint S.codemaps) :
    ((find_codemap_at_addr S a = find_codemap_at_addr S b ∧
        (find_codemap_at_addr S a).isSome) ↔ inSameBlock S a b) ∧
    ((∀ blk ∈ S.codemaps, ¬ coversCodemap blk a) →
      find_codemap_at_addr S a = none) := by
  constructor
  · constructor
    · rintro ⟨heq, hsome⟩
      unfold find_codemap_at_addr at heq hsome
      obtain ⟨blk, hfind⟩ := Option.isSome_iff_exists.mp hsome
      have hpa := List.find?_some hfind
      have ha : coversCodemap blk a := of_decide_eq_true hpa
      have hmem := List.mem_of_find?_eq_some hfind
      rw [heq] at hfind
      have hpb := List.find?_some hfind
      have hb : coversCodemap blk b := of_decide_eq_true hpb
      exact ⟨blk, hmem, ha, hb⟩
    · rintro ⟨blk, hmem, ha, hb⟩
      have hufind : ∀ (x : Int), coversCodemap blk x →
          find_codemap_at_addr S x = some blk := by
        intro x hx
        unfold find_codemap_at_addr
        have hsome : (S.codemaps.find?
            (fun b2 => decide (coversCodemap b2 x))).isSome :=
          List.find?_isSome.mpr ⟨blk, hmem, decide_eq_true hx⟩
        obtain ⟨blk2, hfind2⟩ := Option.isSome_iff_exists.mp hsome
        have hp2 := List.find?_some hfind2
        have hx2 : coversCodemap blk2 x := of_decide_eq_true hp2
        have hmem2 := List.mem_of_find?_eq_some hfind2
        by_cases hne : blk2 = blk
        · subst hne; exact hfind2
        · exfalso
          have hdis := List.Pairwise.forall codemapDisjoint_symm hdisj
            hmem2 hmem hne
          unfold coversCodemap at hx hx2
          rcases hdis with hd | hd <;> omega
      rw [hufind a ha, hufind b hb]
      simp
  · intro h
    unfold find_codemap_at_addr
    rw [List.find?_eq_none]
    intro x hx
    simp only [decide_eq_true_eq]
    exact h x hx

/-- Witness for C6 (amended) on the single-block storage. -/
theorem find_codemap_at_addr_same_block_witness :
    ((find_codemap_at_addr singleBlockStorage 105 =
        find_codemap_at_addr singleBlockStorage 110 ∧
      (find_codemap_at_addr singleBlockStorage 105).isSome) ↔
        inSameBlock singleBlockStorage 105 110) ∧
    ((∀ blk ∈ singleBlockStorage.codemaps, ¬ coversCodemap blk 105) →
      find_codemap_at_addr singleBlockStorage 105 = none) :=
  find_codemap_at_addr_same_block singleBlockStorage 105 110 (by decide)

/-- C7: `get_final_bytecode` resets the builder's buffer to the fresh-builder
state, so a subsequent sequence of `debug_merge_point` calls followed by
`get_final_bytecode` on the same builder produces the same Codemap Block as
on a newly constructed builder. -/
theorem get_final_bytecode_resets_builder (b : CodemapBuilder) (start : Int)
    (size : Nat) (evs : List Event) (start2 : Int) (size2 : Nat) :
    (get_final_bytecode b start size).2 = CodemapBuilder.empty ∧
    (get_final_bytecode
        (runMergePoints (get_final_bytecode b start size).2 evs)
        start2 size2).1 =
      (get_final_bytecode (runMergePoints CodemapBuilder.empty evs)
        start2 size2).1 :=
  ⟨rfl, rfl⟩

/-- C8: `teardown()` followed by `setup()` returns the index to a state
observationally equivalent to a freshly initialized empty index: every query
takes its not-found path regardless of prior registrations. -/
theorem teardown_setup_fresh (S : CodemapStorage) (a : Int) :
    (S.free).setup = emptyStorage.setup ∧
    find_codemap_at_addr ((S.free).setup) a = none ∧
    unpack_traceback ((S.free).setup) a = [] ∧
    stack_depth_at_loc ((S.free).setup) a = -1 :=
  ⟨rfl, rfl, rfl, rfl⟩

/-- C10: inserting, immediately after an event `(d, loc, o)`, a duplicate
event `(d, loc, o2)` with `o ≤ o2` and no event between them leaves
`unpack_traceback` unchanged at every queried address. -/
theorem duplicate_merge_point_noop (evs1 evs2 : List Event) (d : Nat)
    (loc : Int) (o o2 : Nat) (start : Int) (size : Nat) (addr : Int)
    (h : monoFrom 0 (evs1 ++ ⟨d, loc, o⟩ :: ⟨d, loc, o2⟩ :: evs2) = true) :
    unpack_traceback (register_codemap emptyStorage.setup
      (get_final_bytecode (runMergePoints CodemapBuilder.empty
        (evs1 ++ ⟨d, loc, o⟩ :: ⟨d, loc, o2⟩ :: evs2)) start size).1) addr =
    unpack_traceback (register_codemap emptyStorage.setup
      (get_final_bytecode (runMergePoints CodemapBuilder.empty
        (evs1 ++ ⟨d, loc, o⟩ :: evs2)) start size).1) addr := by
  obtain ⟨h2, hoo⟩ :=
    monoFrom_drop_dup ⟨d, loc, o⟩ ⟨d, loc, o2⟩ evs2 evs1 0 h
  rw [get_final_payload, get_final_payload, unpack_single_block,
    unpack_single_block]
  by_cases hcov : coversCodemap
      ⟨start, size,
        encodeEvents (evs1 ++ ⟨d, loc, o⟩ :: ⟨d, loc, o2⟩ :: evs2)⟩ addr
  · have hcov2 : coversCodemap
        ⟨start, size, encodeEvents (evs1 ++ ⟨d, loc, o⟩ :: evs2)⟩ addr := hcov
    rw [if_pos hcov, if_pos hcov2]
    rw [reconstruct_encodeEvents _ h _, reconstruct_encodeEvents _ h2 _]
    exact replayStack_dup evs1 evs2 d loc o o2 _ hoo
  · have hcov2 : ¬ coversCodemap
        ⟨start, size, encodeEvents (evs1 ++ ⟨d, loc, o⟩ :: evs2)⟩ addr := hcov
    rw [if_neg hcov, if_neg hcov2]

/-- Witness for C10: duplicating the merge point `(1, 104, 15)` at offset 16
leaves the traceback at address 117 unchanged. -/
theorem duplicate_merge_point_noop_witness :
    monoFrom 0 [⟨0, 102, 0⟩, ⟨1, 104, 15⟩, ⟨1, 104, 16⟩, ⟨0, 102, 35⟩] =
      true ∧
    unpack_traceback (register_codemap emptyStorage.setup
      (get_final_bytecode (runMergePoints CodemapBuilder.empty
        ([⟨0, 102, 0⟩] ++ ⟨1, 104, 15⟩ :: ⟨1, 104, 16⟩ :: [⟨0, 102, 35⟩]))
        100 40).1) 117 =
    unpack_traceback (register_codemap emptyStorage.setup
      (get_final_bytecode (runMergePoints CodemapBuilder.empty
        ([⟨0, 102, 0⟩] ++ ⟨1, 104, 15⟩ :: [⟨0, 102, 35⟩])) 100 40).1) 117 :=
  ⟨by decide,
    duplicate_merge_point_noop [⟨0, 102, 0⟩] [⟨0, 102, 35⟩] 1 104 15 16
      100 40 117 (by decide)⟩

end Codemap

